import Mathlib

/-!
Verification of the chunked accessibility-rewrite pipeline of the
AccessibilityAgent editor extension.

The development shallowly embeds the pieces of the source that the
specification talks about:

* the chunk planner loop of `runMakeAccessible` (fixed-size line ranges),
* `maskToken`,
* `extractUpdatedFileAndSummary` (the fenced-code-block response parser),
* the response handling of `callCodyApi` and `listModels`,
* the line-level diff segments displayed by `buildColoredUnifiedDiff`,
* the stateful run loop of `runMakeAccessible` (single-shot and chunked
  paths, backup capture) and `handleRevert`, modelled as explicit state
  passing where document text is represented by its list of lines and each
  remote completion call + response parse is an input from an oracle
  `Nat → List String → ChunkReply` (chunk index and the chunk text that was
  sent determine the reply).
-/

/-! ### Chunk planner

Source loop (`runMakeAccessible`, chunked path):
`for (let start = 0; start < totalLines; start += CHUNK_MAX_LINES) {
   const end = Math.min(start + CHUNK_MAX_LINES, totalLines);
   chunks.push({ start, end }); }`
The loop is embedded with a fuel argument (`totalLines` iterations are
always enough when the step is at least 1). -/

def planChunksAux (maxChunkLines totalLines : Nat) : Nat → Nat → List (Nat × Nat)
  | 0, _ => []
  | fuel + 1, start =>
    if start < totalLines then
      (start, min (start + maxChunkLines) totalLines) ::
        planChunksAux maxChunkLines totalLines fuel (start + maxChunkLines)
    else []

def planChunks (totalLines maxChunkLines : Nat) : List (Nat × Nat) :=
  planChunksAux maxChunkLines totalLines totalLines 0

/-- `coversB lo hi l` holds when `l` is a chain of nonempty half-open ranges
that starts at `lo`, is contiguous (each range begins where the previous one
ended) and ends exactly at `hi`. -/
def coversB : Nat → Nat → List (Nat × Nat) → Bool
  | lo, hi, [] => lo == hi
  | lo, hi, (s, e) :: rest =>
    (s == lo) && decide (lo < e) && decide (e ≤ hi) && coversB e hi rest

theorem coversB_nil (lo hi : Nat) : coversB lo hi [] = (lo == hi) := rfl

theorem coversB_cons (lo hi s e : Nat) (rest : List (Nat × Nat)) :
    coversB lo hi ((s, e) :: rest) =
      ((s == lo) && decide (lo < e) && decide (e ≤ hi) && coversB e hi rest) := rfl

theorem planChunksAux_covers (maxChunkLines totalLines : Nat)
    (hm : 1 ≤ maxChunkLines) :
    ∀ fuel start, start ≤ totalLines → totalLines - start ≤ fuel →
      coversB start totalLines (planChunksAux maxChunkLines totalLines fuel start) = true := by
  intro fuel
  induction fuel with
  | zero =>
    intro start hle hf
    have : start = totalLines := by omega
    subst this
    simp [planChunksAux, coversB]
  | succ n ih =>
    intro start hle hf
    by_cases h : start < totalLines
    · rw [planChunksAux, if_pos h, coversB_cons]
      by_cases h2 : start + maxChunkLines ≤ totalLines
      · have hmin : min (start + maxChunkLines) totalLines = start + maxChunkLines := by omega
        rw [hmin]
        have := ih (start + maxChunkLines) h2 (by omega)
        simp only [this, Bool.and_true]
        simp
        omega
      · have hmin : min (start + maxChunkLines) totalLines = totalLines := by omega
        rw [hmin]
        have hstop : planChunksAux maxChunkLines totalLines n (start + maxChunkLines) = [] := by
          cases n with
          | zero => rfl
          | succ k =>
            rw [planChunksAux, if_neg (by omega)]
        rw [hstop]
        simp [coversB]
        omega
    · rw [planChunksAux, if_neg h]
      have : start = totalLines := by omega
      subst this
      simp [coversB]

theorem planChunksAux_size (maxChunkLines totalLines : Nat) :
    ∀ fuel start c, c ∈ planChunksAux maxChunkLines totalLines fuel start →
      c.2 - c.1 ≤ maxChunkLines := by
  intro fuel
  induction fuel with
  | zero => intro start c hc; simp [planChunksAux] at hc
  | succ n ih =>
    intro start c hc
    rw [planChunksAux] at hc
    by_cases h : start < totalLines
    · rw [if_pos h] at hc
      rcases List.mem_cons.mp hc with h1 | h2
      · subst h1; simp; omega
      · exact ih _ _ h2
    · rw [if_neg h] at hc
      simp at hc

theorem coversB_pairwise (lo hi : Nat) (l : List (Nat × Nat))
    (h : coversB lo hi l = true) :
    List.Pairwise (fun a b : Nat × Nat => a.2 ≤ b.1) l ∧
      ∀ c ∈ l, lo ≤ c.1 ∧ c.1 < c.2 ∧ c.2 ≤ hi := by
  induction l generalizing lo with
  | nil => simp
  | cons hd tl ih =>
    obtain ⟨s, e⟩ := hd
    rw [coversB_cons] at h
    simp only [Bool.and_eq_true, beq_iff_eq, decide_eq_true_eq] at h
    obtain ⟨⟨⟨hs, hlt⟩, hle⟩, hrest⟩ := h
    obtain ⟨hpw, hbounds⟩ := ih e hrest
    constructor
    · refine List.pairwise_cons.mpr ⟨?_, hpw⟩
      intro c hc
      exact (hbounds c hc).1
    · intro c hc
      rcases List.mem_cons.mp hc with h1 | h2
      · subst h1; omega
      · have := hbounds c h2; omega

theorem coversB_chain (lo hi : Nat) (l : List (Nat × Nat))
    (h : coversB lo hi l = true) :
    List.Chain' (fun a b : Nat × Nat => a.2 = b.1) l := by
  induction l generalizing lo with
  | nil => simp
  | cons hd tl ih =>
    obtain ⟨s, e⟩ := hd
    rw [coversB_cons] at h
    simp only [Bool.and_eq_true, beq_iff_eq, decide_eq_true_eq] at h
    obtain ⟨⟨⟨hs, hlt⟩, hle⟩, hrest⟩ := h
    cases tl with
    | nil => simp
    | cons hd2 tl2 =>
      obtain ⟨s2, e2⟩ := hd2
      rw [coversB_cons] at hrest
      simp only [Bool.and_eq_true, beq_iff_eq, decide_eq_true_eq] at hrest
      refine List.chain'_cons.mpr ⟨?_, ih e ?_⟩
      · exact hrest.1.1.1.symm
      · rw [coversB_cons]
        simp only [Bool.and_eq_true, beq_iff_eq, decide_eq_true_eq]
        exact hrest

theorem coversB_union (lo hi : Nat) (l : List (Nat × Nat))
    (h : coversB lo hi l = true) :
    ∀ n, (∃ c ∈ l, c.1 ≤ n ∧ n < c.2) ↔ (lo ≤ n ∧ n < hi) := by
  induction l generalizing lo with
  | nil =>
    simp only [coversB_nil, beq_iff_eq] at h
    subst h
    intro n
    constructor
    · rintro ⟨c, hc, _⟩; simp at hc
    · intro hn; omega
  | cons hd tl ih =>
    obtain ⟨s, e⟩ := hd
    rw [coversB_cons] at h
    simp only [Bool.and_eq_true, beq_iff_eq, decide_eq_true_eq] at h
    obtain ⟨⟨⟨hs, hlt⟩, hle⟩, hrest⟩ := h
    subst hs
    intro n
    have htl := ih e hrest n
    constructor
    · rintro ⟨c, hc, hc1, hc2⟩
      rcases List.mem_cons.mp hc with h1 | h2
      · subst h1
        simp only at hc1 hc2
        have := (htl.mpr)
        constructor
        · exact hc1
        · omega
      · have := htl.mp ⟨c, h2, hc1, hc2⟩
        omega
    · intro ⟨h1, h2⟩
      by_cases hn : n < e
      · exact ⟨(s, e), List.mem_cons_self _ _, h1, hn⟩
      · obtain ⟨c, hc, hcs⟩ := htl.mpr ⟨by omega, h2⟩
        exact ⟨c, List.mem_cons_of_mem _ hc, hcs⟩

/-- C1: for every `totalLines ≥ 0` and `maxChunkLines ≥ 1` the chunk planner
produces an ordered sequence of contiguous, non-overlapping, nonempty
half-open ranges whose union is exactly `[0, totalLines)`; no range is longer
than `maxChunkLines`; `totalLines = 0` yields the empty sequence; and a
650-line document with `maxChunkLines = 300` yields the ranges
`[0,300)`, `[300,600)`, `[600,650)`. -/
theorem planChunks_correct (totalLines maxChunkLines : Nat) (hm : 1 ≤ maxChunkLines) :
    List.Pairwise (fun a b : Nat × Nat => a.2 ≤ b.1) (planChunks totalLines maxChunkLines) ∧
    List.Chain' (fun a b : Nat × Nat => a.2 = b.1) (planChunks totalLines maxChunkLines) ∧
    (∀ n, (∃ c ∈ planChunks totalLines maxChunkLines, c.1 ≤ n ∧ n < c.2) ↔ n < totalLines) ∧
    (∀ c ∈ planChunks totalLines maxChunkLines, c.1 < c.2 ∧ c.2 - c.1 ≤ maxChunkLines) ∧
    planChunks 0 maxChunkLines = [] ∧
    planChunks 650 300 = [(0, 300), (300, 600), (600, 650)] := by
  have hcov : coversB 0 totalLines (planChunks totalLines maxChunkLines) = true :=
    planChunksAux_covers maxChunkLines totalLines hm totalLines 0 (Nat.zero_le _) (by omega)
  obtain ⟨hpw, hbounds⟩ := coversB_pairwise 0 totalLines _ hcov
  refine ⟨hpw, coversB_chain 0 totalLines _ hcov, ?_, ?_, rfl, by decide⟩
  · intro n
    have := coversB_union 0 totalLines _ hcov n
    simpa using this
  · intro c hc
    exact ⟨(hbounds c hc).2.1, planChunksAux_size maxChunkLines totalLines totalLines 0 c hc⟩

/-- Witness for C1 at `totalLines = 650`, `maxChunkLines = 300`. -/
theorem planChunks_correct_witness :
    planChunks 650 300 = [(0, 300), (300, 600), (600, 650)] :=
  (planChunks_correct 650 300 (by decide)).2.2.2.2.2

/-! ### maskToken

Source:
`function maskToken(token) {
   if (!token || token.length < 8) return '';
   return token.slice(0, 4) + '…' + token.slice(-4); }`
Text is modelled at character granularity (`List Char`); a `null`/`undefined`
token is `none`. -/

def maskToken (token : Option (List Char)) : List Char :=
  match token with
  | none => []
  | some t =>
    if t.length < 8 then []
    else t.take 4 ++ '…' :: t.drop (t.length - 4)

/-- C10: `maskToken` returns the empty string for a missing token or one
shorter than 8 characters; otherwise it returns the first 4 characters, an
ellipsis, and the last 4 characters, so the mask holds exactly 8 characters
drawn from the secret (plus the ellipsis), and an 8-character token is
revealed in full (`take 4 ++ drop 4` is the whole token). -/
theorem maskToken_spec :
    maskToken none = [] ∧
    (∀ t : List Char, t.length < 8 → maskToken (some t) = []) ∧
    (∀ t : List Char, 8 ≤ t.length →
      maskToken (some t) = t.take 4 ++ '…' :: t.drop (t.length - 4) ∧
      (maskToken (some t)).length = 9 ∧
      (t.take 4 ++ t.drop (t.length - 4)).length = 8) ∧
    (∀ t : List Char, t.length = 8 →
      maskToken (some t) = t.take 4 ++ '…' :: t.drop 4 ∧
      t.take 4 ++ t.drop 4 = t) := by
  refine ⟨rfl, ?_, ?_, ?_⟩
  · intro t ht
    simp [maskToken, ht]
  · intro t ht
    have hnot : ¬ t.length < 8 := by omega
    refine ⟨by simp [maskToken, hnot], ?_, ?_⟩
    · simp [maskToken, hnot, List.length_take, List.length_drop]
      omega
    · simp [List.length_take, List.length_drop]
      omega
  · intro t ht
    have hnot : ¬ t.length < 8 := by omega
    constructor
    · simp [maskToken, hnot, ht]
    · exact List.take_append_drop 4 t

/-- Witness for C10 at the 9-character token "abcdEFGHI" and the 8-character
token "abcdEFGH". -/
theorem maskToken_spec_witness :
    maskToken (some "abcdEFGHI".toList) =
      "abcdEFGHI".toList.take 4 ++ '…' :: "abcdEFGHI".toList.drop 5 ∧
    "abcdEFGH".toList.take 4 ++ "abcdEFGH".toList.drop 4 = "abcdEFGH".toList := by
  constructor
  · exact (maskToken_spec.2.2.1 "abcdEFGHI".toList (by decide)).1
  · exact (maskToken_spec.2.2.2 "abcdEFGH".toList (by decide)).2

/-! ### Response parser

Source (`extractUpdatedFileAndSummary`):
the first match of the regular expression
`/```[a-zA-Z0-9]*\n([\s\S]*?)\n```/` is located in the model text (leftmost
start; at a given start the alphanumeric language tag is a maximal run that
must be followed by a newline, and the lazy body ends at the earliest
following `"\n```"`).  If there is no match the function returns only
`raw = modelText`; otherwise the captured body is the candidate update, the
text before the match (trimmed, split on newline runs, first 20 pieces,
re-joined) is the summary, and a candidate that trims to the empty string or
to the trimmed original is suppressed in favour of `raw`. -/

def isAlnumChar (c : Char) : Bool :=
  ('a' ≤ c && c ≤ 'z') || ('A' ≤ c && c ≤ 'Z') || ('0' ≤ c && c ≤ '9')

def fence : List Char := ['`', '`', '`']

def newlineFence : List Char := ['\n', '`', '`', '`']

def startsWithChars : List Char → List Char → Bool
  | [], _ => true
  | _ :: _, [] => false
  | p :: ps, x :: xs => decide (p = x) && startsWithChars ps xs

/-- Body of the lazy group `([\s\S]*?)`: everything up to the earliest
occurrence of `"\n```"`, or `none` when there is no closing fence. -/
def findClose : List Char → Option (List Char)
  | [] => none
  | c :: rest =>
    if startsWithChars newlineFence (c :: rest) then some []
    else
      match findClose rest with
      | some body => some (c :: body)
      | none => none

/-- Attempt to match the fenced-block regex at the head of the text,
returning the captured body: an opening triple backtick, a maximal
alphanumeric run that must be followed by a newline, then the lazy body up to
the earliest closing `"\n```"`. -/
def matchFenceAt (l : List Char) : Option (List Char) :=
  if startsWithChars fence l then
    match (l.drop 3).dropWhile isAlnumChar with
    | c :: afterNl => if c = '\n' then findClose afterNl else none
    | [] => none
  else none

/-- Leftmost match: returns the text before the match together with the
captured body. -/
def findFirstFence : List Char → Option (List Char × List Char)
  | [] => none
  | c :: rest =>
    match matchFenceAt (c :: rest) with
    | some body => some ([], body)
    | none =>
      match findFirstFence rest with
      | some pb => some (c :: pb.1, pb.2)
      | none => none

def isJsSpace (c : Char) : Bool :=
  c = ' ' || c = '\t' || c = '\n' || c = '\r' ||
    c = '\x0b' || c = '\x0c' || c = ' ' || c = '﻿'

/-- `String.prototype.trim`. -/
def trimChars (l : List Char) : List Char :=
  ((l.dropWhile isJsSpace).reverse.dropWhile isJsSpace).reverse

/-- `split(/\n+/)`: split on maximal nonempty runs of newlines. -/
def splitNL : List Char → List (List Char)
  | [] => [[]]
  | c :: rest =>
    if c = '\n' then
      match rest with
      | '\n' :: _ => splitNL rest
      | _ => [] :: splitNL rest
    else
      match splitNL rest with
      | h :: t => (c :: h) :: t
      | [] => [[c]]

/-- `pre.trim().split(/\n+/).slice(0, 20).join('\n')`. -/
def summaryOf (pre : List Char) : List Char :=
  List.intercalate ['\n'] ((splitNL (trimChars pre)).take 20)

structure ExtractResult where
  updatedContent : Option (List Char)
  summary : Option (List Char)
  raw : Option (List Char)
deriving DecidableEq, Repr

def extractUpdatedFileAndSummary (modelText original : List Char) : ExtractResult :=
  match findFirstFence modelText with
  | none => ⟨none, none, some modelText⟩
  | some pb =>
    if trimChars pb.2 = [] ∨ trimChars pb.2 = trimChars original then
      ⟨none, none, some modelText⟩
    else ⟨some pb.2, some (summaryOf pb.1), none⟩

/-- A declarative fenced block: `m` splits as
`pre ++ "```" ++ tag ++ "\n" ++ body ++ "\n```" ++ suf` with an alphanumeric
tag. -/
def IsFencedSplit (m pre tag body suf : List Char) : Prop :=
  m = pre ++ fence ++ tag ++ '\n' :: body ++ '\n' :: fence ++ suf ∧
    tag.all isAlnumChar = true

def ContainsFencedBlock (m : List Char) : Prop :=
  ∃ pre tag body suf, IsFencedSplit m pre tag body suf

theorem startsWithChars_iff (p l : List Char) :
    startsWithChars p l = true ↔ ∃ suf, l = p ++ suf := by
  induction p generalizing l with
  | nil => simp [startsWithChars]
  | cons a ps ih =>
    cases l with
    | nil =>
      simp only [startsWithChars, Bool.false_eq_true, false_iff]
      rintro ⟨suf, h⟩
      simp at h
    | cons x xs =>
      simp only [startsWithChars, Bool.and_eq_true, decide_eq_true_eq, ih]
      constructor
      · rintro ⟨rfl, suf, rfl⟩
        exact ⟨suf, rfl⟩
      · rintro ⟨suf, h⟩
        simp only [List.cons_append, List.cons.injEq] at h
        exact ⟨h.1.symm, suf, h.2⟩

theorem findClose_sound (l b : List Char) (h : findClose l = some b) :
    ∃ suf, l = b ++ newlineFence ++ suf := by
  induction l generalizing b with
  | nil => simp [findClose] at h
  | cons c rest ih =>
    rw [findClose] at h
    by_cases hs : startsWithChars newlineFence (c :: rest) = true
    · rw [if_pos hs] at h
      obtain ⟨rfl⟩ : ([] : List Char) = b := by simpa using h
      obtain ⟨suf, hsuf⟩ := (startsWithChars_iff _ _).mp hs
      exact ⟨suf, by simpa using hsuf⟩
    · rw [if_neg hs] at h
      cases hfc : findClose rest with
      | none => rw [hfc] at h; simp at h
      | some body =>
        rw [hfc] at h
        obtain rfl : c :: body = b := by simpa using h
        obtain ⟨suf, hsuf⟩ := ih body hfc
        exact ⟨suf, by simp [hsuf]⟩

theorem findClose_complete (b suf : List Char) :
    (findClose (b ++ newlineFence ++ suf)).isSome = true := by
  induction b with
  | nil =>
    have h1 : ([] : List Char) ++ newlineFence ++ suf =
        '\n' :: ('`' :: '`' :: '`' :: suf) := by
      simp [newlineFence]
    rw [h1, findClose]
    have hs : startsWithChars newlineFence ('\n' :: ('`' :: '`' :: '`' :: suf)) = true := by
      apply (startsWithChars_iff _ _).mpr
      exact ⟨suf, by simp [newlineFence]⟩
    simp [hs]
  | cons c bs ih =>
    have hassoc : (c :: bs) ++ newlineFence ++ suf = c :: (bs ++ newlineFence ++ suf) := by
      simp
    rw [hassoc, findClose]
    by_cases hs : startsWithChars newlineFence (c :: (bs ++ newlineFence ++ suf)) = true
    · rw [if_pos hs]
      rfl
    · rw [if_neg hs]
      cases hfc : findClose (bs ++ newlineFence ++ suf) with
      | none => rw [hfc] at ih; simp at ih
      | some body => rfl

theorem isAlnumChar_newline : isAlnumChar '\n' = false := by decide

theorem dropWhile_alnum_append (tag r : List Char) (hall : tag.all isAlnumChar = true) :
    (tag ++ '\n' :: r).dropWhile isAlnumChar = '\n' :: r := by
  induction tag with
  | nil => simp [List.dropWhile_cons, isAlnumChar_newline]
  | cons c cs ih =>
    simp only [List.all_cons, Bool.and_eq_true] at hall
    simp only [List.cons_append, List.dropWhile_cons, hall.1, if_true]
    exact ih hall.2

theorem matchFenceAt_at_fence (rest : List Char) :
    matchFenceAt (fence ++ rest) =
      (match rest.dropWhile isAlnumChar with
       | c :: afterNl => if c = '\n' then findClose afterNl else none
       | [] => none) := by
  rw [matchFenceAt]
  have hs : startsWithChars fence (fence ++ rest) = true :=
    (startsWithChars_iff _ _).mpr ⟨rest, rfl⟩
  rw [if_pos hs]
  have hdrop : (fence ++ rest).drop 3 = rest := by simp [fence]
  rw [hdrop]

theorem matchFenceAt_sound (l body : List Char) (h : matchFenceAt l = some body) :
    ∃ tag suf, l = fence ++ tag ++ '\n' :: body ++ '\n' :: fence ++ suf ∧
      tag.all isAlnumChar = true := by
  by_cases hpre : startsWithChars fence l = true
  · obtain ⟨rest, rfl⟩ := (startsWithChars_iff _ _).mp hpre
    rw [matchFenceAt_at_fence] at h
    cases hdw : rest.dropWhile isAlnumChar with
    | nil => rw [hdw] at h; simp at h
    | cons d afterNl =>
      rw [hdw] at h
      by_cases hd : d = '\n'
      · subst hd
        have h2 : findClose afterNl = some body := by simpa using h
        obtain ⟨suf, hsuf⟩ := findClose_sound afterNl body h2
        refine ⟨rest.takeWhile isAlnumChar, suf, ?_, ?_⟩
        · have hsplit : rest.takeWhile isAlnumChar ++ rest.dropWhile isAlnumChar = rest :=
            List.takeWhile_append_dropWhile isAlnumChar rest
          rw [hdw, hsuf] at hsplit
          conv_lhs => rw [← hsplit]
          simp [newlineFence, fence]
        · rw [List.all_eq_true]
          intro x hx
          exact List.mem_takeWhile_imp hx
      · simp [hd] at h
  · rw [matchFenceAt, if_neg hpre] at h
    simp at h

theorem matchFenceAt_complete (tag body suf : List Char)
    (hall : tag.all isAlnumChar = true) :
    (matchFenceAt (fence ++ tag ++ '\n' :: body ++ '\n' :: fence ++ suf)).isSome = true := by
  have hsplit : fence ++ tag ++ '\n' :: body ++ '\n' :: fence ++ suf =
      fence ++ (tag ++ '\n' :: (body ++ newlineFence ++ suf)) := by
    simp [newlineFence, fence]
  rw [hsplit, matchFenceAt_at_fence, dropWhile_alnum_append tag _ hall]
  simpa using findClose_complete body suf

theorem findFirstFence_sound (m : List Char) (pb : List Char × List Char)
    (h : findFirstFence m = some pb) :
    ∃ tag suf, IsFencedSplit m pb.1 tag pb.2 suf := by
  induction m generalizing pb with
  | nil => simp [findFirstFence] at h
  | cons c rest ih =>
    rw [findFirstFence] at h
    cases hm : matchFenceAt (c :: rest) with
    | some body =>
      rw [hm] at h
      obtain rfl : (([], body) : List Char × List Char) = pb := by simpa using h
      obtain ⟨tag, suf, heq, hall⟩ := matchFenceAt_sound _ body hm
      refine ⟨tag, suf, ?_, hall⟩
      rw [List.nil_append]
      exact heq
    | none =>
      rw [hm] at h
      cases hff : findFirstFence rest with
      | none => rw [hff] at h; simp at h
      | some pb' =>
        rw [hff] at h
        obtain rfl : (c :: pb'.1, pb'.2) = pb := by simpa using h
        obtain ⟨tag, suf, heq, hall⟩ := ih pb' hff
        refine ⟨tag, suf, ?_, hall⟩
        simp only [IsFencedSplit] at heq ⊢
        simp [heq]

theorem findFirstFence_step (c : Char) (rest : List Char)
    (h : (findFirstFence rest).isSome = true) :
    (findFirstFence (c :: rest)).isSome = true := by
  rw [findFirstFence]
  cases hm : matchFenceAt (c :: rest) with
  | some body => rfl
  | none =>
    cases hff : findFirstFence rest with
    | none => rw [hff] at h; simp at h
    | some pb => rfl

theorem findFirstFence_of_match (m : List Char)
    (h : (matchFenceAt m).isSome = true) :
    (findFirstFence m).isSome = true := by
  cases m with
  | nil =>
    have : matchFenceAt [] = none := by decide
    rw [this] at h
    simp at h
  | cons c rest =>
    rw [findFirstFence]
    cases hm : matchFenceAt (c :: rest) with
    | some body => rfl
    | none => rw [hm] at h; simp at h

theorem findFirstFence_complete_aux (pre : List Char) :
    ∀ tag body suf, tag.all isAlnumChar = true →
      (findFirstFence (pre ++ fence ++ tag ++ '\n' :: body ++ '\n' :: fence ++ suf)).isSome
        = true := by
  induction pre with
  | nil =>
    intro tag body suf hall
    rw [List.nil_append]
    exact findFirstFence_of_match _ (matchFenceAt_complete tag body suf hall)
  | cons p ps ih =>
    intro tag body suf hall
    have hassoc : (p :: ps) ++ fence ++ tag ++ '\n' :: body ++ '\n' :: fence ++ suf =
        p :: (ps ++ fence ++ tag ++ '\n' :: body ++ '\n' :: fence ++ suf) := by
      simp
    rw [hassoc]
    exact findFirstFence_step p _ (ih tag body suf hall)

theorem findFirstFence_complete (m : List Char) (h : ContainsFencedBlock m) :
    (findFirstFence m).isSome = true := by
  obtain ⟨pre, tag, body, suf, heq, hall⟩ := h
  rw [heq]
  exact findFirstFence_complete_aux pre tag body suf hall

/-- C4: the response parser returns only `raw = modelText` exactly when the
model text contains no fenced code block (conjuncts 1–2: the matcher succeeds
iff a declarative fenced split of the text exists) or when the first fenced
block's body trims to the empty string or to the trimmed original (conjunct
4); otherwise it returns the first block's body as `updatedContent` (the
returned position really carries a fenced block — conjunct 3) together with
the summary built order-preserving from the text preceding the block
(trimmed, split on newline runs, first 20 pieces, re-joined). -/
theorem extractUpdatedFileAndSummary_spec (m o : List Char) :
    ((findFirstFence m).isSome = true ↔ ContainsFencedBlock m) ∧
    (findFirstFence m = none →
      extractUpdatedFileAndSummary m o = ⟨none, none, some m⟩) ∧
    (∀ pre body, findFirstFence m = some (pre, body) →
      ∃ tag suf, IsFencedSplit m pre tag body suf) ∧
    (∀ pre body, findFirstFence m = some (pre, body) →
      ((trimChars body = [] ∨ trimChars body = trimChars o) →
        extractUpdatedFileAndSummary m o = ⟨none, none, some m⟩) ∧
      (¬ (trimChars body = [] ∨ trimChars body = trimChars o) →
        extractUpdatedFileAndSummary m o = ⟨some body, some (summaryOf pre), none⟩)) := by
  refine ⟨⟨?_, findFirstFence_complete m⟩, ?_, ?_, ?_⟩
  · intro h
    obtain ⟨pb, hpb⟩ := Option.isSome_iff_exists.mp h
    obtain ⟨tag, suf, hsplit⟩ := findFirstFence_sound m pb hpb
    exact ⟨pb.1, tag, pb.2, suf, hsplit⟩
  · intro h
    simp [extractUpdatedFileAndSummary, h]
  · intro pre body h
    exact findFirstFence_sound m (pre, body) h
  · intro pre body h
    constructor
    · intro hsup
      simp only [extractUpdatedFileAndSummary, h]
      rw [if_pos hsup]
    · intro hsup
      simp only [extractUpdatedFileAndSummary, h]
      rw [if_neg hsup]

/-- Witness for C4: a model response with a summary line and a kotlin-tagged
code block produces that block as the update and the preceding text as the
summary. -/
theorem extractUpdatedFileAndSummary_spec_witness :
    extractUpdatedFileAndSummary ("Intro\n```kotlin\nnew code\n```").toList ("orig").toList =
      ⟨some ("new code").toList, some ("Intro").toList, none⟩ := by
  have h := ((extractUpdatedFileAndSummary_spec ("Intro\n```kotlin\nnew code\n```").toList
      ("orig").toList).2.2.2 ("Intro\n").toList ("new code").toList (by decide)).2 (by decide)
  exact h.trans (by decide)

/-! ### Remote completion client

Source (`callCodyApi` / `listModels`): the HTTP response is modelled by its
observable fields.  `content` is `choices[0].message.content` when that field
exists and is a string, `none` otherwise (including unparsable JSON bodies
with a `choices` shape but no string content).  For the models endpoint,
`data` is the parsed `json.data` array (`none` when `json.data` is not an
array), each raw entry carrying its `id` (`none` for a missing/falsy id) and
optional `owned_by`. -/

/-- `text.substring(0, n)`: the first `n` characters of a string. -/
def takeChars (s : String) (n : Nat) : String :=
  String.mk (s.data.take n)

structure ApiResponse where
  ok : Bool
  status : Nat
  bodyText : String
  content : Option String
deriving DecidableEq, Repr

/-- Response handling of `callCodyApi`:
`if (!response.ok) throw Error(\x60Cody API request failed (${status}): ${text.substring(0,500)}\x60)`
then the guard `if (!content || typeof content !== 'string')` throws
`Error('Unexpected Cody API response: missing message content.')` — the
falsy check `!content` rejects the *empty* string as well as a missing or
non-string field. -/
def callCodyApiResult (r : ApiResponse) : Except String String :=
  if r.ok = false then
    Except.error ("Cody API request failed (" ++ toString r.status ++ "): " ++ takeChars r.bodyText 500)
  else
    match r.content with
    | some c =>
      if c = "" then Except.error "Unexpected Cody API response: missing message content."
      else Except.ok c
    | none => Except.error "Unexpected Cody API response: missing message content."

structure ModelsApiResponse where
  ok : Bool
  status : Nat
  bodyText : String
  data : Option (List (Option String × Option String))
deriving DecidableEq, Repr

/-- Response handling of `listModels`: non-ok statuses throw
`Models request failed (${status}): ${text.substring(0,300)}`; on success the
entries of `json.data` (or `[]` when `json.data` is not an array) are mapped
to `{id, owned_by}` and entries with a falsy id are dropped. -/
def listModelsResult (r : ModelsApiResponse) :
    Except String (List (String × Option String)) :=
  if r.ok = false then
    Except.error ("Models request failed (" ++ toString r.status ++ "): " ++ takeChars r.bodyText 300)
  else
    Except.ok (((r.data.getD []).map (fun m => (m.1.getD "", m.2))).filter
      (fun m => decide (m.1 ≠ "")))

instance exceptDecidableEq {e a : Type} [DecidableEq e] [DecidableEq a] :
    DecidableEq (Except e a) := fun x y =>
  match x, y with
  | Except.ok v, Except.ok w =>
    if h : v = w then isTrue (by rw [h]) else isFalse (fun hc => h (Except.ok.inj hc))
  | Except.error v, Except.error w =>
    if h : v = w then isTrue (by rw [h]) else isFalse (fun hc => h (Except.error.inj hc))
  | Except.ok _, Except.error _ => isFalse (fun hc => Except.noConfusion hc)
  | Except.error _, Except.ok _ => isFalse (fun hc => Except.noConfusion hc)

/-- Counterexample for C8: an authorization-failure status (401) produces the
same generic status-carrying error as any other non-success status (500) —
there is no distinct auth error class — and a success response whose `data`
field is not an array makes `listModels` return an empty list instead of
failing with a protocol error. -/
theorem remote_error_taxonomy_counterexample :
    callCodyApiResult ⟨false, 401, "Unauthorized", none⟩ =
      Except.error ("Cody API request failed (401): Unauthorized") ∧
    callCodyApiResult ⟨false, 500, "boom", none⟩ =
      Except.error ("Cody API request failed (500): boom") ∧
    listModelsResult ⟨true, 200, "not json", none⟩ = Except.ok [] := by
  refine ⟨?_, ?_, ?_⟩ <;> decide

/-- C8 (amended): `callCodyApi` fails with one status-carrying error format —
`Cody API request failed (status): body truncated to 500 characters` — for
every non-success status including authorization failures, fails with the
fixed protocol-error message exactly when a success response lacks a
*nonempty* string `choices[0].message.content` (the source's falsy check
`!content` also rejects the empty string), and returns the content
otherwise; `listModels` uses the analogous status-carrying format
(300-character truncation) for non-success statuses but never fails on a
success response: a malformed `data` field yields the empty model list. -/
theorem remote_error_behavior (r : ApiResponse) (rm : ModelsApiResponse) :
    (r.ok = false →
      callCodyApiResult r =
        Except.error ("Cody API request failed (" ++ toString r.status ++ "): "
          ++ takeChars r.bodyText 500)) ∧
    (r.ok = true → r.content = none →
      callCodyApiResult r =
        Except.error "Unexpected Cody API response: missing message content.") ∧
    (r.ok = true → r.content = some "" →
      callCodyApiResult r =
        Except.error "Unexpected Cody API response: missing message content.") ∧
    (∀ c, r.ok = true → r.content = some c → c ≠ "" →
      callCodyApiResult r = Except.ok c) ∧
    (rm.ok = false →
      listModelsResult rm =
        Except.error ("Models request failed (" ++ toString rm.status ++ "): "
          ++ takeChars rm.bodyText 300)) ∧
    (rm.ok = true → rm.data = none → listModelsResult rm = Except.ok []) ∧
    (rm.ok = true → ∃ ms, listModelsResult rm = Except.ok ms) := by
  refine ⟨?_, ?_, ?_, ?_, ?_, ?_, ?_⟩
  · intro h
    simp [callCodyApiResult, h]
  · intro h hc
    simp [callCodyApiResult, h, hc]
  · intro h hc
    simp [callCodyApiResult, h, hc]
  · intro c h hc hne
    simp [callCodyApiResult, h, hc, hne]
  · intro h
    simp [listModelsResult, h]
  · intro h hd
    simp [listModelsResult, h, hd]
  · intro h
    refine ⟨((rm.data.getD []).map (fun m => (m.1.getD "", m.2))).filter
      (fun m => decide (m.1 ≠ "")), ?_⟩
    rw [listModelsResult, if_neg (by simp [h])]

/-- Witness for C8 (amended) at a 401 completion response, an empty-string
content (protocol error, matching the source's falsy check), a nonempty
content (returned), and a success models response carrying one entry with an
id and one without. -/
theorem remote_error_behavior_witness :
    callCodyApiResult ⟨false, 401, "Unauthorized", none⟩ =
      Except.error ("Cody API request failed (" ++ toString (401 : Nat) ++ "): "
        ++ takeChars ("Unauthorized") 500) ∧
    callCodyApiResult ⟨true, 200, "", some ""⟩ =
      Except.error "Unexpected Cody API response: missing message content." ∧
    callCodyApiResult ⟨true, 200, "", some "hello"⟩ = Except.ok "hello" ∧
    listModelsResult ⟨true, 200, "", some [(some "m1", some "o"), (none, some "x")]⟩ =
      Except.ok [("m1", some "o")] := by
  refine ⟨?_, ?_, ?_, ?_⟩
  · exact (remote_error_behavior ⟨false, 401, "Unauthorized", none⟩
      ⟨true, 200, "", none⟩).1 rfl
  · exact (remote_error_behavior ⟨true, 200, "", some ""⟩
      ⟨true, 200, "", none⟩).2.2.1 rfl rfl
  · exact (remote_error_behavior ⟨true, 200, "", some "hello"⟩
      ⟨true, 200, "", none⟩).2.2.2.1 "hello" rfl rfl (by decide)
  · obtain ⟨ms, hms⟩ := (remote_error_behavior ⟨false, 401, "Unauthorized", none⟩
      ⟨true, 200, "", some [(some "m1", some "o"), (none, some "x")]⟩).2.2.2.2.2.2 rfl
    decide

/-! ### Diff renderer

`buildColoredUnifiedDiff` renders the `Change[]` parts produced by
`diffLines` from the `diff` npm package. -/

inductive DiffTag where
  | added
  | removed
  | unchanged
deriving DecidableEq, Repr

/-- Modelled from the spec: the `diff` package's `diffLines` "uses a
line-granularity longest-common-subsequence-style comparison" (the package
itself is an external dependency, not part of this repository).  `lcsLen` is
the LCS length used to choose between emitting a removal or an addition;
`fuel ≥ old.length + new.length` always suffices. -/
def lcsLen : Nat → List String → List String → Nat
  | 0, _, _ => 0
  | _ + 1, [], _ => 0
  | _ + 1, _, [] => 0
  | fuel + 1, o :: os, n :: ns =>
    if o = n then lcsLen fuel os ns + 1
    else max (lcsLen fuel os (n :: ns)) (lcsLen fuel (o :: os) ns)

/-- Modelled from the spec: line-level LCS diff emitting tagged lines in
document order (removals preferred before additions, as `diffLines` does). -/
def diffLinesModel : Nat → List String → List String → List (DiffTag × String)
  | 0, _, _ => []
  | _ + 1, [], [] => []
  | fuel + 1, [], n :: ns => (DiffTag.added, n) :: diffLinesModel fuel [] ns
  | fuel + 1, o :: os, [] => (DiffTag.removed, o) :: diffLinesModel fuel os []
  | fuel + 1, o :: os, n :: ns =>
    if o = n then (DiffTag.unchanged, o) :: diffLinesModel fuel os ns
    else if lcsLen fuel (o :: os) ns ≤ lcsLen fuel os (n :: ns) then
      (DiffTag.removed, o) :: diffLinesModel fuel os (n :: ns)
    else (DiffTag.added, n) :: diffLinesModel fuel (o :: os) ns

structure DiffSegment where
  tag : DiffTag
  values : List String
deriving DecidableEq, Repr

/-- Modelled from the spec: "consecutive lines of the same classification may
be coalesced into one segment". -/
def coalesceSegments : List (DiffTag × String) → List DiffSegment
  | [] => []
  | (t, v) :: rest =>
    match coalesceSegments rest with
    | [] => [⟨t, [v]⟩]
    | s :: ss => if s.tag = t then ⟨t, v :: s.values⟩ :: ss else ⟨t, [v]⟩ :: s :: ss

/-- The segment sequence of `Diff(oldText, newText)` at line granularity. -/
def diffSegments (old new : List String) : List DiffSegment :=
  coalesceSegments (diffLinesModel (old.length + new.length) old new)

/-- The lines of the segments whose tag is not `x`, in emission order. -/
def keepValues (x : DiffTag) (l : List (DiffTag × String)) : List String :=
  l.filterMap (fun p => if p.1 = x then none else some p.2)

theorem diffLinesModel_roundtrip (fuel : Nat) :
    ∀ old new : List String, old.length + new.length ≤ fuel →
      keepValues DiffTag.removed (diffLinesModel fuel old new) = new ∧
      keepValues DiffTag.added (diffLinesModel fuel old new) = old := by
  induction fuel with
  | zero =>
    intro old new h
    have ho : old = [] := by
      cases old with
      | nil => rfl
      | cons a as => simp at h
    have hn : new = [] := by
      cases new with
      | nil => rfl
      | cons a as => rw [ho] at h; simp at h
    subst ho; subst hn
    simp [diffLinesModel, keepValues]
  | succ n ih =>
    intro old new h
    cases old with
    | nil =>
      cases new with
      | nil => simp [diffLinesModel, keepValues]
      | cons b bs =>
        have := ih [] bs (by simp at h ⊢; omega)
        simp only [diffLinesModel, keepValues, List.filterMap_cons] at this ⊢
        simp [this.1, this.2]
    | cons a as =>
      cases new with
      | nil =>
        have := ih as [] (by simp at h ⊢; omega)
        simp only [diffLinesModel, keepValues, List.filterMap_cons] at this ⊢
        simp [this.1, this.2]
      | cons b bs =>
        rw [diffLinesModel]
        by_cases hab : a = b
        · subst hab
          rw [if_pos rfl]
          have := ih as bs (by simp at h ⊢; omega)
          simp only [keepValues, List.filterMap_cons] at this ⊢
          simp [this.1, this.2]
        · rw [if_neg hab]
          by_cases hc : lcsLen n (a :: as) bs ≤ lcsLen n as (b :: bs)
          · rw [if_pos hc]
            have := ih as (b :: bs) (by simp at h ⊢; omega)
            simp only [keepValues, List.filterMap_cons] at this ⊢
            simp [this.1, this.2]
          · rw [if_neg hc]
            have := ih (a :: as) bs (by simp at h ⊢; omega)
            simp only [keepValues, List.filterMap_cons] at this ⊢
            simp [this.1, this.2]

theorem coalesceSegments_cons_eq (t : DiffTag) (v : String) (rest : List (DiffTag × String)) :
    coalesceSegments ((t, v) :: rest) =
      (match coalesceSegments rest with
       | [] => [⟨t, [v]⟩]
       | s :: ss => if s.tag = t then ⟨t, v :: s.values⟩ :: ss
                    else ⟨t, [v]⟩ :: s :: ss) := rfl

theorem coalesce_head_nil (t : DiffTag) (v : String) (rest : List (DiffTag × String))
    (h : coalesceSegments rest = []) :
    coalesceSegments ((t, v) :: rest) = [⟨t, [v]⟩] := by
  rw [coalesceSegments_cons_eq, h]

theorem coalesce_head_same (t : DiffTag) (v : String) (rest : List (DiffTag × String))
    (s : DiffSegment) (ss : List DiffSegment)
    (h : coalesceSegments rest = s :: ss) (hst : s.tag = t) :
    coalesceSegments ((t, v) :: rest) = ⟨t, v :: s.values⟩ :: ss := by
  rw [coalesceSegments_cons_eq, h]
  simp [hst]

theorem coalesce_head_diff (t : DiffTag) (v : String) (rest : List (DiffTag × String))
    (s : DiffSegment) (ss : List DiffSegment)
    (h : coalesceSegments rest = s :: ss) (hst : ¬ s.tag = t) :
    coalesceSegments ((t, v) :: rest) = ⟨t, [v]⟩ :: s :: ss := by
  rw [coalesceSegments_cons_eq, h]
  simp [hst]

theorem coalesceSegments_concat (x : DiffTag) (l : List (DiffTag × String)) :
    (((coalesceSegments l).filter (fun s => decide (s.tag ≠ x))).map
      DiffSegment.values).flatten = keepValues x l := by
  induction l with
  | nil => simp [coalesceSegments, keepValues]
  | cons p rest ih =>
    obtain ⟨t, v⟩ := p
    have hkv : keepValues x ((t, v) :: rest) =
        (if t = x then ([] : List String) else [v]) ++ keepValues x rest := by
      simp only [keepValues, List.filterMap_cons]
      by_cases ht : t = x
      · simp [ht]
      · simp [ht]
    rw [hkv]
    cases hco : coalesceSegments rest with
    | nil =>
      rw [hco] at ih
      rw [coalesce_head_nil t v rest hco]
      simp only [List.filter_cons]
      by_cases ht : t = x
      · subst ht
        simp at ih ⊢
        simp [← ih]
      · simp [ht] at ih ⊢
        simp [← ih]
    | cons s ss =>
      rw [hco] at ih
      by_cases hst : s.tag = t
      · rw [coalesce_head_same t v rest s ss hco hst]
        simp only [List.filter_cons] at ih ⊢
        by_cases ht : t = x
        · subst ht
          simp [hst] at ih ⊢
          exact ih
        · have hsx : ¬ s.tag = x := by rw [hst]; exact ht
          simp [hst, ht, hsx] at ih ⊢
          rw [← ih]
      · rw [coalesce_head_diff t v rest s ss hco hst]
        simp only [List.filter_cons] at ih ⊢
        by_cases ht : t = x
        · subst ht
          simp at ih ⊢
          exact ih
        · simp [ht] at ih ⊢
          rw [← ih]

/-- C9: the diff segments are emitted in document order — concatenating the
values of the non-removed segments reproduces the new text exactly, and
concatenating the values of the non-added segments reproduces the old text
exactly (texts at line granularity; the Lean embedding is pure, so neither
input is mutated). -/
theorem diffSegments_roundtrip (old new : List String) :
    (((diffSegments old new).filter (fun s => decide (s.tag ≠ DiffTag.removed))).map
      DiffSegment.values).flatten = new ∧
    (((diffSegments old new).filter (fun s => decide (s.tag ≠ DiffTag.added))).map
      DiffSegment.values).flatten = old := by
  have h := diffLinesModel_roundtrip (old.length + new.length) old new (Nat.le_refl _)
  constructor
  · rw [diffSegments, coalesceSegments_concat, h.1]
  · rw [diffSegments, coalesceSegments_concat, h.2]

/-! ### Orchestrator state machine

The sidebar `runMakeAccessible` and `handleRevert`, embedded as explicit
state passing.  Document text is represented by its list of lines (VS Code
range edits in the source replace whole line ranges, and chunk text is
produced with `currentText.split(/\r?\n/).slice(start, end).join('\n')`, so
line granularity is exact).  Each `callCodyApi` +
`extractUpdatedFileAndSummary` round trip for a chunk is an oracle input:
`failure msg` models a thrown exception (network/HTTP/protocol), `noEdit`
models a response with no usable `updatedContent`, and `edit newLines` models
a parsed replacement for the chunk. -/

structure Backup where
  uri : String
  content : List String
deriving DecidableEq, Repr

structure EditorState where
  doc : List String
  backup : Option Backup
deriving DecidableEq, Repr

inductive ChunkReply where
  | failure (msg : String)
  | noEdit
  | edit (newLines : List String)
deriving DecidableEq, Repr

structure RunOutcome where
  finalState : EditorState
  trace : List (Nat × List String)
  error : Option String
deriving DecidableEq, Repr

/-- The error posted by the catch block:
`Endpoint: ${endpoint}\nModel: ${modelId}\nError: ${message}`. -/
def fmtRunError (endpoint modelId msg : String) : String :=
  "Endpoint: " ++ endpoint ++ "\nModel: " ++ modelId ++ "\nError: " ++ msg

/-- The message of the host-editor exception thrown by
`document.lineAt(line)` when `line` is outside the document; its exact text
is environment-defined and no claim depends on it. -/
def lineAtErrorMessage : String := "Illegal value for line"

/-- `currentLines.slice(start, end)`. -/
def sliceLines (lines : List String) (s e : Nat) : List String :=
  (lines.drop s).take (e - s)

/-- Replacing the range from the start of line `s` to the end of line `e - 1`
with the given replacement lines. -/
def applyChunkEdit (doc : List String) (s e : Nat) (newLines : List String) : List String :=
  doc.take s ++ newLines ++ doc.drop e

/-- The chunk loop of `runMakeAccessible`: for each planned range, slice the
chunk text from the *current* document, consult the oracle (the remote call
and parse), and either abort with the formatted error (exception), skip the
chunk (`noEdit`), or capture the backup if none is held and apply the edit.
A range edit whose end line no longer exists raises the `lineAt` exception,
which the same catch block formats.  The trace records each chunk index with
the exact chunk text that was sent. -/
def processChunks (oracle : Nat → List String → ChunkReply)
    (uri endpoint modelId : String) (originalLines : List String) :
    List (Nat × Nat) → Nat → EditorState → RunOutcome
  | [], _, st => ⟨st, [], none⟩
  | (s, e) :: rest, i, st =>
    let chunkText := sliceLines st.doc s e
    match oracle i chunkText with
    | ChunkReply.failure msg =>
      ⟨st, [(i, chunkText)], some (fmtRunError endpoint modelId msg)⟩
    | ChunkReply.noEdit =>
      let r := processChunks oracle uri endpoint modelId originalLines rest (i + 1) st
      ⟨r.finalState, (i, chunkText) :: r.trace, r.error⟩
    | ChunkReply.edit newLines =>
      if s < st.doc.length ∧ 0 < e ∧ e ≤ st.doc.length then
        let st' : EditorState :=
          ⟨applyChunkEdit st.doc s e newLines, some (st.backup.getD ⟨uri, originalLines⟩)⟩
        let r := processChunks oracle uri endpoint modelId originalLines rest (i + 1) st'
        ⟨r.finalState, (i, chunkText) :: r.trace, r.error⟩
      else
        ⟨st, [(i, chunkText)],
          some (fmtRunError endpoint modelId lineAtErrorMessage)⟩

/-- The single-shot path (`totalLines ≤ CHUNK_MAX_LINES`): one call over the
whole content; on a parsed update the backup is set *unconditionally* to the
pre-run text and the whole document is replaced. -/
def runSingleShot (reply : ChunkReply) (uri : String) (endpoint modelId : String)
    (st : EditorState) : RunOutcome :=
  match reply with
  | ChunkReply.failure msg =>
    ⟨st, [(0, st.doc)], some (fmtRunError endpoint modelId msg)⟩
  | ChunkReply.noEdit => ⟨st, [(0, st.doc)], none⟩
  | ChunkReply.edit newLines =>
    ⟨⟨newLines, some ⟨uri, st.doc⟩⟩, [(0, st.doc)], none⟩

def CHUNK_MAX_LINES : Nat := 300

/-- A whole run of the sidebar `runMakeAccessible` over the active document. -/
def runMakeAccessible (oracle : Nat → List String → ChunkReply)
    (uri endpoint modelId : String) (st : EditorState) : RunOutcome :=
  if st.doc.length ≤ CHUNK_MAX_LINES then
    runSingleShot (oracle 0 st.doc) uri endpoint modelId st
  else
    processChunks oracle uri endpoint modelId st.doc
      (planChunks st.doc.length CHUNK_MAX_LINES) 0 st

/-- The chunk plan a run draws for a given starting state. -/
def chunkPlanOf (st : EditorState) : List (Nat × Nat) :=
  planChunks st.doc.length CHUNK_MAX_LINES

/-- The run restricted to the first `i` planned chunks. -/
def prefixRun (oracle : Nat → List String → ChunkReply)
    (uri endpoint modelId : String) (st : EditorState) (i : Nat) : RunOutcome :=
  processChunks oracle uri endpoint modelId st.doc ((chunkPlanOf st).take i) 0 st

/-! ### Backup/revert ledger (`handleRevert`) -/

structure AppState where
  active : Option (String × List String)
  backup : Option Backup
deriving DecidableEq, Repr

def nothingToRevertMessage : String := "Nothing to revert. Make some edits first."

def noActiveEditorMessage : String := "No active editor to revert."

def wrongFileMessage : String := "Last edit was for a different file. Open that file to revert."

/-- `handleRevert`: fail if no backup is held, fail if there is no active
editor, fail if the active document differs from the backed-up one; otherwise
apply the backed-up text to the live document and clear the ledger.  A
failure (`Except.error`) leaves the state unchanged — the source throws
before any mutation. -/
def handleRevert (st : AppState) : Except String AppState :=
  match st.backup with
  | none => Except.error nothingToRevertMessage
  | some b =>
    match st.active with
    | none => Except.error noActiveEditorMessage
    | some d =>
      if b.uri ≠ d.1 then Except.error wrongFileMessage
      else Except.ok ⟨some (d.1, b.content), none⟩

theorem processChunks_nil (oracle : Nat → List String → ChunkReply)
    (u ep md : String) (orig : List String) (i : Nat) (st : EditorState) :
    processChunks oracle u ep md orig [] i st = ⟨st, [], none⟩ := rfl

theorem processChunks_cons (oracle : Nat → List String → ChunkReply)
    (u ep md : String) (orig : List String) (s e i : Nat)
    (rest : List (Nat × Nat)) (st : EditorState) :
    processChunks oracle u ep md orig ((s, e) :: rest) i st =
      (match oracle i (sliceLines st.doc s e) with
       | ChunkReply.failure msg =>
         ⟨st, [(i, sliceLines st.doc s e)], some (fmtRunError ep md msg)⟩
       | ChunkReply.noEdit =>
         ⟨(processChunks oracle u ep md orig rest (i + 1) st).finalState,
          (i, sliceLines st.doc s e) ::
            (processChunks oracle u ep md orig rest (i + 1) st).trace,
          (processChunks oracle u ep md orig rest (i + 1) st).error⟩
       | ChunkReply.edit newLines =>
         if s < st.doc.length ∧ 0 < e ∧ e ≤ st.doc.length then
           ⟨(processChunks oracle u ep md orig rest (i + 1)
               ⟨applyChunkEdit st.doc s e newLines,
                some (st.backup.getD ⟨u, orig⟩)⟩).finalState,
            (i, sliceLines st.doc s e) ::
              (processChunks oracle u ep md orig rest (i + 1)
                ⟨applyChunkEdit st.doc s e newLines,
                 some (st.backup.getD ⟨u, orig⟩)⟩).trace,
            (processChunks oracle u ep md orig rest (i + 1)
              ⟨applyChunkEdit st.doc s e newLines,
               some (st.backup.getD ⟨u, orig⟩)⟩).error⟩
         else
           ⟨st, [(i, sliceLines st.doc s e)],
            some (fmtRunError ep md lineAtErrorMessage)⟩) := rfl

theorem processChunks_cons_failure (oracle : Nat → List String → ChunkReply)
    (u ep md : String) (orig : List String) (s e i : Nat)
    (rest : List (Nat × Nat)) (st : EditorState) (msg : String)
    (horacle : oracle i (sliceLines st.doc s e) = ChunkReply.failure msg) :
    processChunks oracle u ep md orig ((s, e) :: rest) i st =
      ⟨st, [(i, sliceLines st.doc s e)], some (fmtRunError ep md msg)⟩ := by
  rw [processChunks_cons, horacle]

theorem processChunks_cons_noEdit (oracle : Nat → List String → ChunkReply)
    (u ep md : String) (orig : List String) (s e i : Nat)
    (rest : List (Nat × Nat)) (st : EditorState)
    (horacle : oracle i (sliceLines st.doc s e) = ChunkReply.noEdit) :
    processChunks oracle u ep md orig ((s, e) :: rest) i st =
      ⟨(processChunks oracle u ep md orig rest (i + 1) st).finalState,
       (i, sliceLines st.doc s e) ::
         (processChunks oracle u ep md orig rest (i + 1) st).trace,
       (processChunks oracle u ep md orig rest (i + 1) st).error⟩ := by
  rw [processChunks_cons, horacle]

theorem processChunks_cons_edit (oracle : Nat → List String → ChunkReply)
    (u ep md : String) (orig : List String) (s e i : Nat)
    (rest : List (Nat × Nat)) (st : EditorState) (newLines : List String)
    (horacle : oracle i (sliceLines st.doc s e) = ChunkReply.edit newLines)
    (hin : s < st.doc.length ∧ 0 < e ∧ e ≤ st.doc.length) :
    processChunks oracle u ep md orig ((s, e) :: rest) i st =
      ⟨(processChunks oracle u ep md orig rest (i + 1)
          ⟨applyChunkEdit st.doc s e newLines,
           some (st.backup.getD ⟨u, orig⟩)⟩).finalState,
       (i, sliceLines st.doc s e) ::
         (processChunks oracle u ep md orig rest (i + 1)
           ⟨applyChunkEdit st.doc s e newLines,
            some (st.backup.getD ⟨u, orig⟩)⟩).trace,
       (processChunks oracle u ep md orig rest (i + 1)
         ⟨applyChunkEdit st.doc s e newLines,
          some (st.backup.getD ⟨u, orig⟩)⟩).error⟩ := by
  rw [processChunks_cons, horacle]
  simp [hin]

theorem processChunks_cons_edit_bad (oracle : Nat → List String → ChunkReply)
    (u ep md : String) (orig : List String) (s e i : Nat)
    (rest : List (Nat × Nat)) (st : EditorState) (newLines : List String)
    (horacle : oracle i (sliceLines st.doc s e) = ChunkReply.edit newLines)
    (hin : ¬ (s < st.doc.length ∧ 0 < e ∧ e ≤ st.doc.length)) :
    processChunks oracle u ep md orig ((s, e) :: rest) i st =
      ⟨st, [(i, sliceLines st.doc s e)],
       some (fmtRunError ep md lineAtErrorMessage)⟩ := by
  rw [processChunks_cons, horacle]
  simp [hin]

theorem processChunks_append_ok (oracle : Nat → List String → ChunkReply)
    (u ep md : String) (orig : List String) (c1 : List (Nat × Nat)) :
    ∀ (c2 : List (Nat × Nat)) (i : Nat) (st : EditorState),
      (processChunks oracle u ep md orig c1 i st).error = none →
      processChunks oracle u ep md orig (c1 ++ c2) i st =
        ⟨(processChunks oracle u ep md orig c2 (i + c1.length)
            (processChunks oracle u ep md orig c1 i st).finalState).finalState,
         (processChunks oracle u ep md orig c1 i st).trace ++
           (processChunks oracle u ep md orig c2 (i + c1.length)
             (processChunks oracle u ep md orig c1 i st).finalState).trace,
         (processChunks oracle u ep md orig c2 (i + c1.length)
           (processChunks oracle u ep md orig c1 i st).finalState).error⟩ := by
  induction c1 with
  | nil =>
    intro c2 i st h
    simp [processChunks_nil]
  | cons hd rest ih =>
    obtain ⟨s, e⟩ := hd
    intro c2 i st h
    cases horacle : oracle i (sliceLines st.doc s e) with
    | failure msg =>
      rw [processChunks_cons_failure oracle u ep md orig s e i rest st msg horacle] at h
      simp at h
    | noEdit =>
      rw [processChunks_cons_noEdit oracle u ep md orig s e i rest st horacle] at h
      simp only at h
      rw [List.cons_append,
        processChunks_cons_noEdit oracle u ep md orig s e i (rest ++ c2) st horacle,
        processChunks_cons_noEdit oracle u ep md orig s e i rest st horacle,
        ih c2 (i + 1) st h]
      simp only [List.length_cons, List.cons_append]
      rw [show i + 1 + rest.length = i + (rest.length + 1) from by omega]
    | edit newLines =>
      by_cases hin : s < st.doc.length ∧ 0 < e ∧ e ≤ st.doc.length
      · rw [processChunks_cons_edit oracle u ep md orig s e i rest st newLines horacle hin] at h
        simp only at h
        rw [List.cons_append,
          processChunks_cons_edit oracle u ep md orig s e i (rest ++ c2) st newLines horacle hin,
          processChunks_cons_edit oracle u ep md orig s e i rest st newLines horacle hin,
          ih c2 (i + 1) _ h]
        simp only [List.length_cons, List.cons_append]
        rw [show i + 1 + rest.length = i + (rest.length + 1) from by omega]
      · rw [processChunks_cons_edit_bad oracle u ep md orig s e i rest st newLines
          horacle hin] at h
        simp at h

theorem processChunks_trace_indices (oracle : Nat → List String → ChunkReply)
    (u ep md : String) (orig : List String) (chunks : List (Nat × Nat)) :
    ∀ (i : Nat) (st : EditorState),
      (processChunks oracle u ep md orig chunks i st).trace.map Prod.fst =
        List.range' i (processChunks oracle u ep md orig chunks i st).trace.length := by
  induction chunks with
  | nil => intro i st; simp [processChunks_nil]
  | cons hd rest ih =>
    obtain ⟨s, e⟩ := hd
    intro i st
    cases horacle : oracle i (sliceLines st.doc s e) with
    | failure msg =>
      rw [processChunks_cons_failure oracle u ep md orig s e i rest st msg horacle]
      simp [List.range']
    | noEdit =>
      rw [processChunks_cons_noEdit oracle u ep md orig s e i rest st horacle]
      simp only [List.map_cons, List.length_cons, List.range']
      rw [ih (i + 1) st]
    | edit newLines =>
      by_cases hin : s < st.doc.length ∧ 0 < e ∧ e ≤ st.doc.length
      · rw [processChunks_cons_edit oracle u ep md orig s e i rest st newLines horacle hin]
        simp only [List.map_cons, List.length_cons, List.range']
        rw [ih (i + 1) _]
      · rw [processChunks_cons_edit_bad oracle u ep md orig s e i rest st newLines horacle hin]
        simp [List.range']

theorem processChunks_trace_length (oracle : Nat → List String → ChunkReply)
    (u ep md : String) (orig : List String) (chunks : List (Nat × Nat)) :
    ∀ (i : Nat) (st : EditorState),
      (processChunks oracle u ep md orig chunks i st).error = none →
      (processChunks oracle u ep md orig chunks i st).trace.length = chunks.length := by
  induction chunks with
  | nil => intro i st _; simp [processChunks_nil]
  | cons hd rest ih =>
    obtain ⟨s, e⟩ := hd
    intro i st h
    cases horacle : oracle i (sliceLines st.doc s e) with
    | failure msg =>
      rw [processChunks_cons_failure oracle u ep md orig s e i rest st msg horacle] at h
      simp at h
    | noEdit =>
      rw [processChunks_cons_noEdit oracle u ep md orig s e i rest st horacle] at h ⊢
      simp only at h
      simp [ih (i + 1) st h]
    | edit newLines =>
      by_cases hin : s < st.doc.length ∧ 0 < e ∧ e ≤ st.doc.length
      · rw [processChunks_cons_edit oracle u ep md orig s e i rest st newLines horacle hin] at h ⊢
        simp only at h
        simp [ih (i + 1) _ h]
      · rw [processChunks_cons_edit_bad oracle u ep md orig s e i rest st newLines
          horacle hin] at h
        simp at h

theorem processChunks_backup (oracle : Nat → List String → ChunkReply)
    (u ep md : String) (orig : List String) (chunks : List (Nat × Nat)) :
    ∀ (i : Nat) (st : EditorState),
      (∀ b, st.backup = some b →
        (processChunks oracle u ep md orig chunks i st).finalState.backup = some b) ∧
      (st.backup = none →
        (processChunks oracle u ep md orig chunks i st).finalState.backup = none ∨
        (processChunks oracle u ep md orig chunks i st).finalState.backup =
          some ⟨u, orig⟩) := by
  induction chunks with
  | nil =>
    intro i st
    exact ⟨fun b hb => hb, fun hb => Or.inl hb⟩
  | cons hd rest ih =>
    obtain ⟨s, e⟩ := hd
    intro i st
    cases horacle : oracle i (sliceLines st.doc s e) with
    | failure msg =>
      rw [processChunks_cons_failure oracle u ep md orig s e i rest st msg horacle]
      exact ⟨fun b hb => hb, fun hb => Or.inl hb⟩
    | noEdit =>
      rw [processChunks_cons_noEdit oracle u ep md orig s e i rest st horacle]
      simp only
      exact ih (i + 1) st
    | edit newLines =>
      by_cases hin : s < st.doc.length ∧ 0 < e ∧ e ≤ st.doc.length
      · rw [processChunks_cons_edit oracle u ep md orig s e i rest st newLines horacle hin]
        simp only
        constructor
        · intro b hb
          refine (ih (i + 1) _).1 b ?_
          simp [hb]
        · intro hb
          right
          refine (ih (i + 1) _).1 ⟨u, orig⟩ ?_
          simp [hb]
      · rw [processChunks_cons_edit_bad oracle u ep md orig s e i rest st newLines horacle hin]
        exact ⟨fun b hb => hb, fun hb => Or.inl hb⟩

theorem processChunks_all_noEdit (oracle : Nat → List String → ChunkReply)
    (u ep md : String) (orig : List String)
    (hno : ∀ j t, oracle j t = ChunkReply.noEdit) (chunks : List (Nat × Nat)) :
    ∀ (i : Nat) (st : EditorState),
      processChunks oracle u ep md orig chunks i st =
        ⟨st, List.enumFrom i (chunks.map (fun c => sliceLines st.doc c.1 c.2)), none⟩ := by
  induction chunks with
  | nil => intro i st; simp [processChunks_nil, List.enumFrom]
  | cons hd rest ih =>
    obtain ⟨s, e⟩ := hd
    intro i st
    rw [processChunks_cons_noEdit oracle u ep md orig s e i rest st (hno i _), ih (i + 1) st]
    simp [List.enumFrom]

theorem processChunks_head_trace (oracle : Nat → List String → ChunkReply)
    (u ep md : String) (orig : List String) (s e i : Nat)
    (rest : List (Nat × Nat)) (st : EditorState) :
    ∃ tr, (processChunks oracle u ep md orig ((s, e) :: rest) i st).trace =
      (i, sliceLines st.doc s e) :: tr := by
  cases horacle : oracle i (sliceLines st.doc s e) with
  | failure msg =>
    rw [processChunks_cons_failure oracle u ep md orig s e i rest st msg horacle]
    exact ⟨[], rfl⟩
  | noEdit =>
    rw [processChunks_cons_noEdit oracle u ep md orig s e i rest st horacle]
    exact ⟨_, rfl⟩
  | edit newLines =>
    by_cases hin : s < st.doc.length ∧ 0 < e ∧ e ≤ st.doc.length
    · rw [processChunks_cons_edit oracle u ep md orig s e i rest st newLines horacle hin]
      exact ⟨_, rfl⟩
    · rw [processChunks_cons_edit_bad oracle u ep md orig s e i rest st newLines horacle hin]
      exact ⟨[], rfl⟩

theorem runMakeAccessible_chunked (oracle : Nat → List String → ChunkReply)
    (uri ep md : String) (st : EditorState) (hbig : CHUNK_MAX_LINES < st.doc.length) :
    runMakeAccessible oracle uri ep md st =
      processChunks oracle uri ep md st.doc (chunkPlanOf st) 0 st := by
  rw [runMakeAccessible, if_neg (by omega)]
  rfl

/-- C3: in the chunked path, if every chunk before `i` completes without an
exception (`hpre`) and the remote call for chunk `i` throws (`hfail`), then
the run stops at chunk `i`: the final state is exactly the state after the
first `i` chunks (all edits already applied remain, and the backup captured
at the first applied edit is still held), the trace is the first `i` chunk
indices followed by chunk `i` alone (no chunk after `i` is attempted), and
the surfaced error is the single formatted message containing the endpoint,
the model id, and the exception message. -/
theorem chunked_failure_semantics (oracle : Nat → List String → ChunkReply)
    (uri ep md : String) (st : EditorState) (i : Nat) (msg : String)
    (hbig : CHUNK_MAX_LINES < st.doc.length)
    (hi : i < (chunkPlanOf st).length)
    (hpre : (prefixRun oracle uri ep md st i).error = none)
    (hfail : ∀ t, oracle i t = ChunkReply.failure msg) :
    runMakeAccessible oracle uri ep md st =
      ⟨(prefixRun oracle uri ep md st i).finalState,
       (prefixRun oracle uri ep md st i).trace ++
         [(i, sliceLines (prefixRun oracle uri ep md st i).finalState.doc
            ((chunkPlanOf st).get ⟨i, hi⟩).1 ((chunkPlanOf st).get ⟨i, hi⟩).2)],
       some (fmtRunError ep md msg)⟩ ∧
    (prefixRun oracle uri ep md st i).trace.map Prod.fst = List.range' 0 i ∧
    (∃ p q, fmtRunError ep md msg = p ++ ep ++ q) ∧
    (∃ p q, fmtRunError ep md msg = p ++ md ++ q) ∧
    (∃ p q, fmtRunError ep md msg = p ++ msg ++ q) := by
  have htklen : ((chunkPlanOf st).take i).length = i := by
    rw [List.length_take]
    omega
  have htrlen : (prefixRun oracle uri ep md st i).trace.length = i := by
    rw [prefixRun] at hpre ⊢
    rw [processChunks_trace_length oracle uri ep md st.doc _ 0 st hpre, htklen]
  refine ⟨?_, ?_, ?_, ?_, ?_⟩
  · have h2 := processChunks_append_ok oracle uri ep md st.doc
      ((chunkPlanOf st).take i) ((chunkPlanOf st).drop i) 0 st hpre
    rw [List.take_append_drop] at h2
    rw [runMakeAccessible_chunked oracle uri ep md st hbig, h2]
    have hidx : 0 + ((chunkPlanOf st).take i).length = i := by rw [htklen]; omega
    rw [hidx]
    have hdrop : (chunkPlanOf st).drop i =
        ((chunkPlanOf st).get ⟨i, hi⟩) :: (chunkPlanOf st).drop (i + 1) :=
      List.drop_eq_get_cons hi
    rw [hdrop]
    have hpair : ((chunkPlanOf st).get ⟨i, hi⟩) =
        (((chunkPlanOf st).get ⟨i, hi⟩).1, ((chunkPlanOf st).get ⟨i, hi⟩).2) := rfl
    rw [hpair, processChunks_cons_failure oracle uri ep md st.doc _ _ i _ _ msg (hfail _)]
    rw [prefixRun]
  · rw [prefixRun, processChunks_trace_indices]
    rw [prefixRun] at htrlen
    rw [htrlen]
  · exact ⟨"Endpoint: ", "\nModel: " ++ md ++ "\nError: " ++ msg,
      by simp [fmtRunError, String.append_assoc]⟩
  · exact ⟨"Endpoint: " ++ ep ++ "\nModel: ", "\nError: " ++ msg,
      by simp [fmtRunError, String.append_assoc]⟩
  · exact ⟨"Endpoint: " ++ ep ++ "\nModel: " ++ md ++ "\nError: ", "",
      by simp [fmtRunError, String.append_assoc, String.append_empty]⟩

set_option maxRecDepth 8000

/-- Witness for C3: a 301-line document (two chunks); chunk 0 parses to no
edit, chunk 1 throws "boom" — the run surfaces the formatted error. -/
theorem chunked_failure_semantics_witness :
    (runMakeAccessible
        (fun j _ => if j = 0 then ChunkReply.noEdit else ChunkReply.failure "boom")
        "u" "ep" "md" ⟨List.replicate 301 "x", none⟩).error =
      some (fmtRunError "ep" "md" "boom") := by
  have h := (chunked_failure_semantics
      (fun j _ => if j = 0 then ChunkReply.noEdit else ChunkReply.failure "boom")
      "u" "ep" "md" ⟨List.replicate 301 "x", none⟩ 1 "boom"
      (by decide) (by decide) (by decide) (fun t => rfl)).1
  rw [h]

/-- C6: in the chunked path, if every chunk before `i` completes without an
exception, then the text sent to the model for chunk `i` is the slice at the
plan-time line boundaries `[startLine_i, endLine_i)` of the live document as
it stands after chunks `0..i-1` (the prefix run's final document), not of the
original pre-run snapshot. -/
theorem chunk_text_reads_live_document (oracle : Nat → List String → ChunkReply)
    (uri ep md : String) (st : EditorState) (i : Nat)
    (hbig : CHUNK_MAX_LINES < st.doc.length)
    (hi : i < (chunkPlanOf st).length)
    (hpre : (prefixRun oracle uri ep md st i).error = none) :
    ∃ tr, (runMakeAccessible oracle uri ep md st).trace =
        (prefixRun oracle uri ep md st i).trace ++
          ((i, sliceLines (prefixRun oracle uri ep md st i).finalState.doc
              ((chunkPlanOf st).get ⟨i, hi⟩).1 ((chunkPlanOf st).get ⟨i, hi⟩).2) :: tr) ∧
      (prefixRun oracle uri ep md st i).trace.length = i := by
  have htklen : ((chunkPlanOf st).take i).length = i := by
    rw [List.length_take]
    omega
  have htrlen : (prefixRun oracle uri ep md st i).trace.length = i := by
    rw [prefixRun] at hpre ⊢
    rw [processChunks_trace_length oracle uri ep md st.doc _ 0 st hpre, htklen]
  have h2 := processChunks_append_ok oracle uri ep md st.doc
    ((chunkPlanOf st).take i) ((chunkPlanOf st).drop i) 0 st hpre
  rw [List.take_append_drop] at h2
  have hidx : 0 + ((chunkPlanOf st).take i).length = i := by rw [htklen]; omega
  rw [hidx] at h2
  have hdrop : (chunkPlanOf st).drop i =
      ((chunkPlanOf st).get ⟨i, hi⟩) :: (chunkPlanOf st).drop (i + 1) :=
    List.drop_eq_get_cons hi
  have hpair : ((chunkPlanOf st).get ⟨i, hi⟩) =
      (((chunkPlanOf st).get ⟨i, hi⟩).1, ((chunkPlanOf st).get ⟨i, hi⟩).2) := rfl
  rw [hdrop, hpair] at h2
  obtain ⟨tr, htr⟩ := processChunks_head_trace oracle uri ep md st.doc
    ((chunkPlanOf st).get ⟨i, hi⟩).1 ((chunkPlanOf st).get ⟨i, hi⟩).2 i
    ((chunkPlanOf st).drop (i + 1))
    (processChunks oracle uri ep md st.doc ((chunkPlanOf st).take i) 0 st).finalState
  refine ⟨tr, ?_, htrlen⟩
  rw [runMakeAccessible_chunked oracle uri ep md st hbig, h2]
  simp only [prefixRun]
  rw [htr]

/-- Witness for C6: a 301-line document; chunk 0's edit replaces its 300
lines with the single line "y", so the live document shrinks to 2 lines and
chunk 1 (plan-time range [300, 301)) is sliced from the *live* document as
the empty chunk — while the same range of the original snapshot is ["x"]. -/
theorem chunk_text_reads_live_document_witness :
    (∃ tr, (runMakeAccessible
        (fun j _ => if j = 0 then ChunkReply.edit ["y"] else ChunkReply.noEdit)
        "u" "ep" "md" ⟨List.replicate 301 "x", none⟩).trace =
        [(0, List.replicate 300 "x")] ++ ((1, ([] : List String)) :: tr)) ∧
    sliceLines (List.replicate 301 "x") 300 301 = ["x"] := by
  constructor
  · obtain ⟨tr, htr, hlen⟩ := chunk_text_reads_live_document
      (fun j _ => if j = 0 then ChunkReply.edit ["y"] else ChunkReply.noEdit)
      "u" "ep" "md" ⟨List.replicate 301 "x", none⟩ 1 (by decide) (by decide) (by decide)
    refine ⟨tr, ?_⟩
    rw [htr]
    have h1 : (prefixRun
        (fun j _ => if j = 0 then ChunkReply.edit ["y"] else ChunkReply.noEdit)
        "u" "ep" "md" ⟨List.replicate 301 "x", none⟩ 1).trace =
        [(0, List.replicate 300 "x")] := by decide
    have h2 : sliceLines (prefixRun
        (fun j _ => if j = 0 then ChunkReply.edit ["y"] else ChunkReply.noEdit)
        "u" "ep" "md" ⟨List.replicate 301 "x", none⟩ 1).finalState.doc
        ((chunkPlanOf ⟨List.replicate 301 "x", none⟩).get ⟨1, by decide⟩).1
        ((chunkPlanOf ⟨List.replicate 301 "x", none⟩).get ⟨1, by decide⟩).2 =
        ([] : List String) := by decide
    rw [h1, h2]
  · decide

/-- C7: a chunk whose model response parses to no structured edit is skipped
— the document and backup are untouched at that step and the loop continues
with the next chunk (first conjunct); a run in which every chunk parses to no
structured edit completes all chunks with no error, leaves the document and
backup exactly as they were, and still sends every planned chunk (second
conjunct) — per-chunk absence of a structured edit is never escalated to a
run-level failure. -/
theorem no_structured_edit_skips :
    (∀ (oracle : Nat → List String → ChunkReply) (u ep md : String)
        (orig : List String) (s e i : Nat) (rest : List (Nat × Nat)) (st : EditorState),
      oracle i (sliceLines st.doc s e) = ChunkReply.noEdit →
      processChunks oracle u ep md orig ((s, e) :: rest) i st =
        ⟨(processChunks oracle u ep md orig rest (i + 1) st).finalState,
         (i, sliceLines st.doc s e) ::
           (processChunks oracle u ep md orig rest (i + 1) st).trace,
         (processChunks oracle u ep md orig rest (i + 1) st).error⟩) ∧
    (∀ (oracle : Nat → List String → ChunkReply) (uri ep md : String) (st : EditorState),
      CHUNK_MAX_LINES < st.doc.length →
      (∀ j t, oracle j t = ChunkReply.noEdit) →
      runMakeAccessible oracle uri ep md st =
        ⟨st, List.enumFrom 0 ((chunkPlanOf st).map
          (fun c => sliceLines st.doc c.1 c.2)), none⟩) := by
  constructor
  · intro oracle u ep md orig s e i rest st horacle
    exact processChunks_cons_noEdit oracle u ep md orig s e i rest st horacle
  · intro oracle uri ep md st hbig hno
    rw [runMakeAccessible_chunked oracle uri ep md st hbig]
    exact processChunks_all_noEdit oracle uri ep md st.doc hno (chunkPlanOf st) 0 st

/-- Witness for C7: a 301-line document whose two chunks both parse to no
edit — the run completes with no error, an unchanged state, and both chunks
sent. -/
theorem no_structured_edit_skips_witness :
    runMakeAccessible (fun _ _ => ChunkReply.noEdit) "u" "ep" "md"
        ⟨List.replicate 301 "x", none⟩ =
      ⟨⟨List.replicate 301 "x", none⟩,
       List.enumFrom 0 ((chunkPlanOf ⟨List.replicate 301 "x", none⟩).map
         (fun c => sliceLines (List.replicate 301 "x") c.1 c.2)), none⟩ :=
  no_structured_edit_skips.2 (fun _ _ => ChunkReply.noEdit) "u" "ep" "md"
    ⟨List.replicate 301 "x", none⟩ (by decide) (fun j t => rfl)

/-- Counterexample for C2: a single-shot run (1-line document) against a
state that already holds an outstanding, unreverted backup of the same file
overwrites that backup with the new run's pre-run text — capture is *not* a
no-op while a backup is held. -/
theorem backup_overwritten_counterexample :
    (runMakeAccessible (fun _ _ => ChunkReply.edit ["changed"]) "file-a" "ep" "md"
        ⟨["current"], some ⟨"file-a", ["pristine"]⟩⟩).finalState.backup =
      some ⟨"file-a", ["current"]⟩ ∧
    some (Backup.mk "file-a" ["current"]) ≠ some (Backup.mk "file-a" ["pristine"]) := by
  constructor
  · rfl
  · decide

/-- C2 (amended): in the *chunked* path capture is first-writer-wins — an
outstanding backup is never replaced (first conjunct), and when no backup is
held at the start of the run, the backup is either still absent at the end
(no chunk produced an edit) or holds exactly the original pre-run full text
(second conjunct).  The *single-shot* path, by contrast, captures
unconditionally: a parsed edit always sets the backup to that run's own
pre-run text, overwriting any outstanding backup (third conjunct). -/
theorem backup_first_writer_wins :
    (∀ (oracle : Nat → List String → ChunkReply) (uri ep md : String)
        (st : EditorState) (b : Backup),
      CHUNK_MAX_LINES < st.doc.length → st.backup = some b →
      (runMakeAccessible oracle uri ep md st).finalState.backup = some b) ∧
    (∀ (oracle : Nat → List String → ChunkReply) (uri ep md : String)
        (st : EditorState),
      CHUNK_MAX_LINES < st.doc.length → st.backup = none →
      (runMakeAccessible oracle uri ep md st).finalState.backup = none ∨
      (runMakeAccessible oracle uri ep md st).finalState.backup =
        some ⟨uri, st.doc⟩) ∧
    (∀ (oracle : Nat → List String → ChunkReply) (uri ep md : String)
        (st : EditorState) (newLines : List String),
      st.doc.length ≤ CHUNK_MAX_LINES → oracle 0 st.doc = ChunkReply.edit newLines →
      (runMakeAccessible oracle uri ep md st).finalState.backup =
        some ⟨uri, st.doc⟩) := by
  refine ⟨?_, ?_, ?_⟩
  · intro oracle uri ep md st b hbig hb
    rw [runMakeAccessible_chunked oracle uri ep md st hbig]
    exact (processChunks_backup oracle uri ep md st.doc (chunkPlanOf st) 0 st).1 b hb
  · intro oracle uri ep md st hbig hb
    rw [runMakeAccessible_chunked oracle uri ep md st hbig]
    exact (processChunks_backup oracle uri ep md st.doc (chunkPlanOf st) 0 st).2 hb
  · intro oracle uri ep md st newLines hsmall hor
    rw [runMakeAccessible, if_pos hsmall, hor]
    rfl

/-- Witness for C2 (amended): a chunked run over a 301-line document with an
outstanding backup keeps that backup; a single-shot edit with no outstanding
backup captures the pre-run text. -/
theorem backup_first_writer_wins_witness :
    (runMakeAccessible (fun _ _ => ChunkReply.noEdit) "u" "ep" "md"
        ⟨List.replicate 301 "x", some ⟨"v", ["o"]⟩⟩).finalState.backup =
      some ⟨"v", ["o"]⟩ ∧
    (runMakeAccessible (fun _ _ => ChunkReply.edit ["n"]) "u" "ep" "md"
        ⟨["c"], none⟩).finalState.backup = some ⟨"u", ["c"]⟩ := by
  constructor
  · exact backup_first_writer_wins.1 (fun _ _ => ChunkReply.noEdit) "u" "ep" "md"
      ⟨List.replicate 301 "x", some ⟨"v", ["o"]⟩⟩ ⟨"v", ["o"]⟩ (by decide) rfl
  · exact backup_first_writer_wins.2.2 (fun _ _ => ChunkReply.edit ["n"]) "u" "ep" "md"
      ⟨["c"], none⟩ ["n"] (by decide) rfl

/-- C5: with a backup held for the active document, revert applies the
captured text to the document and clears the ledger, so a second revert
without an intervening capture fails with the nothing-to-revert error;
revert fails with the nothing-to-revert error when no backup is held, and
with the wrong-file error when the active document differs from the
backed-up one (failures return `Except.error` and leave the state
untouched — the source throws before any mutation). -/
theorem handleRevert_spec :
    (∀ (st : AppState) (b : Backup) (d : String × List String),
      st.backup = some b → st.active = some d → b.uri = d.1 →
      handleRevert st = Except.ok ⟨some (d.1, b.content), none⟩ ∧
      handleRevert ⟨some (d.1, b.content), none⟩ =
        Except.error nothingToRevertMessage) ∧
    (∀ st : AppState, st.backup = none →
      handleRevert st = Except.error nothingToRevertMessage) ∧
    (∀ (st : AppState) (b : Backup) (d : String × List String),
      st.backup = some b → st.active = some d → b.uri ≠ d.1 →
      handleRevert st = Except.error wrongFileMessage) := by
  refine ⟨?_, ?_, ?_⟩
  · intro st b d hb ha huri
    obtain ⟨sa, sb⟩ := st
    simp only at hb ha
    subst hb; subst ha
    constructor
    · simp [handleRevert, huri]
    · rfl
  · intro st hb
    obtain ⟨sa, sb⟩ := st
    simp only at hb
    subst hb
    rfl
  · intro st b d hb ha huri
    obtain ⟨sa, sb⟩ := st
    simp only at hb ha
    subst hb; subst ha
    simp [handleRevert, huri]

/-- Witness for C5 at a concrete state: capture for file "a" with "a"
active reverts to the captured text and clears the ledger; the follow-up
revert and the mismatched-file revert fail. -/
theorem handleRevert_spec_witness :
    handleRevert ⟨some ("a", ["cur"]), some ⟨"a", ["orig"]⟩⟩ =
      Except.ok ⟨some ("a", ["orig"]), none⟩ ∧
    handleRevert ⟨some ("a", ["orig"]), none⟩ =
      Except.error nothingToRevertMessage ∧
    handleRevert ⟨some ("b", ["cur"]), some ⟨"a", ["orig"]⟩⟩ =
      Except.error wrongFileMessage := by
  refine ⟨?_, ?_, ?_⟩
  · exact (handleRevert_spec.1 ⟨some ("a", ["cur"]), some ⟨"a", ["orig"]⟩⟩
      ⟨"a", ["orig"]⟩ ("a", ["cur"]) rfl rfl rfl).1
  · exact (handleRevert_spec.1 ⟨some ("a", ["cur"]), some ⟨"a", ["orig"]⟩⟩
      ⟨"a", ["orig"]⟩ ("a", ["cur"]) rfl rfl rfl).2
  · exact handleRevert_spec.2.2 ⟨some ("b", ["cur"]), some ⟨"a", ["orig"]⟩⟩
      ⟨"a", ["orig"]⟩ ("b", ["cur"]) rfl rfl (by decide)
